import Mathlib

set_option autoImplicit false

namespace KWORD

/-!
Shallow embedding of the KWORD keyword pipeline
(src/src/keyword_scoring_free_only.py, src/tools/compute_scores.py,
src/tools/fetch_competition_counts.py).  Text is modelled as `List Char`
(Python `str` values index by code point, as `List Char` does); numeric
values are modelled as `ℚ` (exact arithmetic in place of IEEE doubles).
-/

/-! ### Python string primitives -/

/-- Characters matched by Python `\s` / `str.strip` in unicode mode. -/
def pySpaceChars : List Char :=
  [' ', '\t', '\n', '\r', '\x0b', '\x0c', '\x1c', '\x1d', '\x1e', '\x1f',
   '\x85', '\xa0', ' ', ' ', ' ', ' ', ' ', ' ',
   ' ', ' ', ' ', ' ', ' ', ' ', ' ',
   ' ', ' ', ' ', '　']

def isSp (c : Char) : Bool := pySpaceChars.contains c

/-- The punctuation class of `_collapse_spaces`: the regex set `,./~-_:;`. -/
def isPunct (c : Char) : Bool := ([',', '.', '/', '~', '-', '_', ':', ';'] : List Char).contains c

/-- Case folding used by `re.IGNORECASE` / `str.lower` (ASCII letters; Hangul
and symbols are uncased and map to themselves, as in Python). -/
def lowerC (c : Char) : Char := c.toLower

/-- Drop trailing whitespace (the right half of Python `str.strip`). -/
def dropTrail : List Char → List Char
  | [] => []
  | c :: r =>
    match dropTrail r with
    | [] => if isSp c then [] else [c]
    | d :: r' => c :: d :: r'

/-- Python `str.strip`. -/
def pyStrip (l : List Char) : List Char := dropTrail (l.dropWhile isSp)

def pyStripS (s : String) : String := String.mk (pyStrip s.toList)

def pyLowerS (s : String) : String := String.mk (s.toList.map lowerC)

/-- Python `_to_bool` from keyword_scoring_free_only.py (also `_truthy` in
compute_scores.py): membership of the stripped, lower-cased string in the
truthy set. -/
def pyToBool (s : String) : Bool :=
  (["1", "true", "t", "yes", "y", "on"] : List String).contains (pyLowerS (pyStripS s))

def hdSp : List Char → Bool
  | [] => false
  | c :: _ => isSp c

def hdPunct : List Char → Bool
  | [] => false
  | c :: _ => isPunct c

/-- Does `w` match at the head of `s` under character mapping `f`
(`f := lowerC` gives case-insensitive matching, `f := id` literal matching)? -/
def matchesAt (f : Char → Char) : List Char → List Char → Bool
  | [], _ => true
  | _ :: _, [] => false
  | a :: as, b :: bs => (f a == f b) && matchesAt f as bs

/-- Does `w` occur as a substring of `s` under mapping `f`? -/
def occursB (f : Char → Char) (w : List Char) : List Char → Bool
  | [] => matchesAt f w []
  | c :: r => matchesAt f w (c :: r) || occursB f w r

/-- Case-insensitive occurrence: `re.search(re.escape(w), s, re.IGNORECASE)`. -/
def ciOccursB (w s : List Char) : Bool := occursB lowerC w s

/-- Literal (case-sensitive) substring test: Python `w in s`. -/
def substrB (w s : List Char) : Bool := occursB id w s

/-- Worker for `removeOcc`: scan left to right; `skip` counts characters of a
matched occurrence still to be consumed (skipped from the output). -/
def roGo (w : List Char) (skip : Nat) : List Char → List Char
  | [] => []
  | c :: r =>
    match skip with
    | k + 1 => roGo w k r
    | 0 =>
      if matchesAt lowerC w (c :: r) then roGo w (w.length - 1) r
      else c :: roGo w 0 r

/-- One `pat.subn("", cur)` pass for `pat = re.compile(re.escape(w), re.IGNORECASE)`:
remove all non-overlapping occurrences of `w`, scanning left to right.
The empty pattern never reaches this point in the source (empty terms are
filtered out by `_sorted_desc_by_len`); on it `subn` leaves the text unchanged. -/
def removeOcc (w : List Char) (s : List Char) : List Char :=
  match w with
  | [] => s
  | _ :: _ => roGo w 0 s

/-! ### `_collapse_spaces` as three structural passes plus strip -/

/-- Pass `re.sub(r"\s+", " ", s)`: each maximal whitespace run becomes one
space.  The flag records whether the previous character was whitespace
(so the current one continues an already-emitted run). -/
def cws2 (b : Bool) : List Char → List Char
  | [] => []
  | c :: r =>
    if isSp c then
      if b then cws2 true r else ' ' :: cws2 true r
    else c :: cws2 false r

/-- Pass `re.sub(r"\s+([,./~\-_:;])", r"\1", s)`: delete every whitespace run
that immediately precedes a punctuation character.  Processing right to
left, a whitespace character is deleted exactly when the processed tail
starts with punctuation. -/
def p2s : List Char → List Char
  | [] => []
  | c :: r =>
    let t := p2s r
    if isSp c && hdPunct t then t else c :: t

/-- Pass `re.sub(r"([,./~\-_:;])\s+", r"\1 ", s)`: a punctuation character
followed by a whitespace run keeps exactly one space.  State: 0 = normal,
1 = previous char was punctuation, 2 = inside a run whose single space has
already been emitted. -/
def p3s (st : Nat) : List Char → List Char
  | [] => []
  | c :: r =>
    if isSp c then
      if st = 1 then ' ' :: p3s 2 r
      else if st = 2 then p3s 2 r
      else c :: p3s 0 r
    else c :: p3s (if isPunct c then 1 else 0) r

/-- `_collapse_spaces` from keyword_scoring_free_only.py. -/
def collapse_spaces (l : List Char) : List Char := pyStrip (p3s 0 (p2s (cws2 false l)))

/-! ### Sanitizer -/

/-- `_sorted_desc_by_len`: drop empty terms, de-duplicate, sort by length,
longest first.  The Python source materialises a `set` (iteration order
unspecified) before the stable sort; here de-duplication keeps a canonical
deterministic order, which only affects ties between equal-length terms. -/
def sorted_desc_by_len (ts : List String) : List String :=
  List.insertionSort (fun a b => b.length ≤ a.length) ((ts.filter (fun t => t ≠ "")).dedup)

/-- The word-removal loop of `sanitize_text`: remove each prohibited word
longest-first; a word is logged when its `subn` count was positive, i.e.
when it occurred in the current text. -/
def word_strip (words : List String) (s : List Char) : List Char × List String :=
  (sorted_desc_by_len words).foldl
    (fun acc w =>
      let hit := ciOccursB w.toList acc.1
      (removeOcc w.toList acc.1, if hit then acc.2 ++ [w] else acc.2))
    (s, [])

/-- The symbol-removal pass of `sanitize_text`: the symbols present in the
current text form one literal character class (for a multi-character entry
each of its characters joins the class), removed in a single pass.  When a
symbol is present the class matches at least once, so the logged removals
are exactly the present symbols. -/
def symbol_strip (symbols : List String) (s : List Char) : List Char × List String :=
  if symbols.isEmpty then (s, [])
  else
    let present := symbols.filter (fun t => t ≠ "" && substrB t.toList s)
    if present.isEmpty then (s, [])
    else
      let cls := present.foldr (fun t acc => t.toList ++ acc) []
      (s.filter (fun c => !cls.contains c), present)

structure SanitizeDetail where
  original : List Char
  sanitized : List Char
  removed_words : List String
  removed_symbols : List String
  changed : Bool
deriving Repr, DecidableEq

/-- `sanitize_text` from keyword_scoring_free_only.py. -/
def sanitize_text (text : String) (words symbols : List String) :
    List Char × SanitizeDetail :=
  let original := pyStrip text.toList
  let ws := word_strip words original
  let ss := symbol_strip symbols ws.1
  let cur := collapse_spaces ss.1
  (cur, ⟨original, cur, ws.2, ss.2, original != cur⟩)

structure SeedRow where
  keyword : String
  category : String
deriving Repr, DecidableEq

structure SanRow where
  keyword : String
  category : String
  keyword_sanitized : String
  sanitized_changed : Bool
deriving Repr, DecidableEq

structure LogRow where
  row_index : Nat
  keyword_original : String
  keyword_sanitized : String
  removed_words : String
  removed_symbols : String
  changed : Bool
deriving Repr, DecidableEq

/-- `sanitize_df`: adds the `keyword_sanitized` and `sanitized_changed`
columns to a copy of the seed table and emits one audit record per row
(the dataframe has the default integer index, so `row_index` is the
position). -/
def sanitize_df (rows : List SeedRow) (words symbols : List String) :
    List SanRow × List LogRow :=
  (rows.map (fun r =>
      let p := sanitize_text r.keyword words symbols
      { keyword := r.keyword, category := r.category,
        keyword_sanitized := String.mk p.1, sanitized_changed := p.2.changed }),
   rows.enum.map (fun ir =>
      let p := sanitize_text ir.2.keyword words symbols
      { row_index := ir.1, keyword_original := String.mk p.2.original,
        keyword_sanitized := String.mk p.1,
        removed_words := String.intercalate ", " p.2.removed_words,
        removed_symbols := String.intercalate ", " p.2.removed_symbols,
        changed := p.2.changed }))

/-! ### Competition aggregation (collect_competition, fetch_competition_counts) -/

/-- Python `round(x, 6)` on the exact value (rounding to the nearest
multiple of 10⁻⁶). -/
def round6 (q : ℚ) : ℚ := (round (q * 1000000) : ℤ) / 1000000

/-- `comp_combined` of `collect_competition`:
`(math.log1p(cpn) if cpn is not None else 0.0) + (math.log1p(nav) if nav is not None else 0.0)`,
rounded to 6 decimals.  The transcendental `math.log1p` is a parameter of the
embedding; it satisfies `log1p 0 = 0`. -/
def collect_combined (log1p : ℕ → ℚ) (cpn nav : Option ℕ) : ℚ :=
  round6 ((match cpn with | some x => log1p x | none => 0) +
          (match nav with | some x => log1p x | none => 0))

/-- One CSV row of the incremental fetcher for the default output header;
`comp_combined = none` models the cell left empty (the source only writes
the `%.4f`-formatted value into the dict when `combined is not None`). -/
structure CompRow where
  seed : String
  keyword : String
  comp_coupang : Option Nat
  comp_naver : Option Nat
  comp_combined : Option ℚ
  scraped_at : String
deriving Repr, DecidableEq

def default_header : List String :=
  ["seed", "keyword", "comp_coupang", "comp_naver", "comp_combined", "scraped_at"]

/-- `_row_dict_for_header` instantiated at the default header: seed and
keyword are written as given; `combined = log1p(comp_c or 0) + log1p(comp_n or 0)`
is computed only when at least one count is present (`Option.getD 0` models
`or 0`, which also sends a present count of 0 to 0). -/
def row_dict_for_default_header (log1p : ℕ → ℚ) (ts seed kw : String)
    (comp_c comp_n : Option Nat) : CompRow :=
  { seed := seed, keyword := kw, comp_coupang := comp_c, comp_naver := comp_n,
    comp_combined :=
      if comp_c.isSome || comp_n.isSome then
        some (log1p (comp_c.getD 0) + log1p (comp_n.getD 0))
      else none,
    scraped_at := ts }

/-- `_iter_input_rows` after column detection: each input row projected to its
(seed cell, keyword cell); strip both, keep only rows with a non-empty
keyword. -/
def iter_input_rows (rows : List (String × String)) : List (String × String) :=
  rows.filterMap (fun p =>
    let kw := pyStrip p.2.toList
    if kw.isEmpty then none else some (String.mk (pyStrip p.1.toList), String.mk kw))

/-- `_read_existing_header_and_keys` applied to rows under the default header
(`seed_col = "seed"`, `kw_col = "keyword"`): the stripped (seed, keyword)
pairs. -/
def read_existing_keys (rows : List CompRow) : List (String × String) :=
  rows.map (fun r => (String.mk (pyStrip r.seed.toList), String.mk (pyStrip r.keyword.toList)))

/-- The row-writing loop of `fetch_and_append` (default header, no raised
exceptions): pairs whose key is in the already-processed set are skipped,
every other pair is fetched (`oracle` gives the two counts for a keyword
during this run) and written immediately. -/
def fetch_and_append_rows (log1p : ℕ → ℚ) (ts : String)
    (exist_keys : List (String × String)) (pairs : List (String × String))
    (oracle : String → Option Nat × Option Nat) : List CompRow :=
  (pairs.filter (fun p => !exist_keys.contains p)).map
    (fun p => row_dict_for_default_header log1p ts p.1 p.2 (oracle p.2).1 (oracle p.2).2)

/-! ### Score computation (compute_scores.py) -/

/-- `_minmax`: min-max scale a numeric column; a zero range yields all zeros
(the NaN branches of the source concern missing values, which the ℚ model
has none of; an empty column stays empty). -/
def minmax (l : List ℚ) : List ℚ :=
  match l with
  | [] => []
  | a :: r =>
    let mn := r.foldl min a
    let mx := r.foldl max a
    if mx - mn = 0 then l.map (fun _ => 0) else l.map (fun x => (x - mn) / (mx - mn))

/-- The scoring tail of `compute_scores`: each row carries its
(intent_proxy, comp_combined) values; both columns are min-max normalised and
`score = 100 * (w_int * intent_norm + w_cmp * (1 - competition_norm))`. -/
def compute_score_rows (w_int w_cmp : ℚ) (rows : List (ℚ × ℚ)) : List ℚ :=
  List.zipWith (fun i c => 100 * (w_int * i + w_cmp * (1 - c)))
    (minmax (rows.map Prod.fst)) (minmax (rows.map Prod.snd))

/-- The weight defaulting and renormalisation of `_read_excel_config`
(compute_scores.py): `none` models a weight not found by any of the three
detection passes. -/
def read_excel_weights (w_int w_cmp : Option ℚ) : ℚ × ℚ :=
  match w_int, w_cmp with
  | some a, some b =>
    let s := a + b
    if s ≤ 0 then (11/20, 9/20) else (a / s, b / s)
  | _, _ => (11/20, 9/20)

/-- The weight half of `apply_precedence` (keyword_scoring_free_only.py):
CLI override over spreadsheet value per axis; a non-positive total falls
back to the built-in defaults, then the pair is renormalised.  (The
`isfinite` half of the guard is vacuous in exact arithmetic.) -/
def apply_precedence_weights (cli_i cli_c : Option ℚ) (excel_i excel_c : ℚ) : ℚ × ℚ :=
  let w_i := cli_i.getD excel_i
  let w_c := cli_c.getD excel_c
  let total := w_i + w_c
  if total ≤ 0 then
    let di : ℚ := 11/20
    let dc : ℚ := 9/20
    (di / (di + dc), dc / (di + dc))
  else (w_i / total, w_c / total)

/-- The normalisation tail of `_parse_weights_block` (the dead
`W_competITION` lookup in its fallback resolves to the ordinary default). -/
def parse_weights_block_norm (w_i w_c : ℚ) : ℚ × ℚ :=
  let total := w_i + w_c
  if total ≤ 0 then
    let di : ℚ := 11/20
    let dc : ℚ := 9/20
    (di / (di + dc), dc / (di + dc))
  else (w_i / total, w_c / total)

/-! ### Token resolution -/

/-- Digit-run parser: all characters must be decimal digits. -/
def parseNatDigits (cs : List Char) : Option Nat :=
  match cs with
  | [] => none
  | _ =>
    if cs.all Char.isDigit then
      some (cs.foldl (fun a c => 10 * a + (c.toNat - 48)) 0)
    else none

def parseMantissa (cs : List Char) : Option ℚ :=
  let ip := cs.takeWhile (fun c => c ≠ '.')
  match cs.dropWhile (fun c => c ≠ '.') with
  | [] => (parseNatDigits ip).map (fun n => (n : ℚ))
  | _ :: fp =>
    if ip.isEmpty && fp.isEmpty then none
    else if ip.all Char.isDigit && fp.all Char.isDigit && !(fp.any (fun c => c = '.')) then
      some ((ip.foldl (fun a c => 10 * a + (c.toNat - 48)) 0 : ℚ) +
            (fp.foldl (fun a c => 10 * a + (c.toNat - 48)) 0 : ℚ) / (10 : ℚ) ^ fp.length)
    else none

def parseExponent (cs : List Char) : Option ℤ :=
  match cs with
  | '+' :: rest => (parseNatDigits rest).map (fun n => (n : ℤ))
  | '-' :: rest => (parseNatDigits rest).map (fun n => -(n : ℤ))
  | _ => (parseNatDigits cs).map (fun n => (n : ℤ))

def parseMag (cs : List Char) : Option ℚ :=
  let mant := cs.takeWhile (fun c => !(c = 'e' || c = 'E'))
  match cs.dropWhile (fun c => !(c = 'e' || c = 'E')) with
  | [] => parseMantissa mant
  | _ :: ex =>
    match parseMantissa mant, parseExponent ex with
    | some m, some e => some (m * (10 : ℚ) ^ e)
    | _, _ => none

/-- Python `float(str)` on finite decimal literals (the `inf` and `nan`
spellings have no ℚ value and are out of the model). -/
def pyFloat (s : String) : Option ℚ :=
  match pyStrip s.toList with
  | [] => none
  | '+' :: rest => parseMag rest
  | '-' :: rest => (parseMag rest).map Neg.neg
  | cs => parseMag cs

/-- `_safe_float`: parse, clamp below at 0; on failure return the default. -/
def pySafeFloat (s : String) (default : ℚ) : ℚ :=
  match pyFloat (pyStripS s) with
  | some f => max f 0
  | none => default

/-- Python dict insert: overwrite in place when the key exists, else append. -/
def upsert (l : List (String × ℚ)) (k : String) (v : ℚ) : List (String × ℚ) :=
  if l.any (fun p => p.1 = k) then l.map (fun p => if p.1 = k then (k, v) else p)
  else l ++ [(k, v)]

def DEFAULT_TOKENS_list : List (String × ℚ) :=
  [("빅사이즈", 1), ("임산부", 9/10), ("하객", 7/10), ("홈웨어", 3/5), ("니트", 1/2),
   ("롱", 1/2), ("후드", 2/5), ("맨투맨", 2/5), ("폴라", 2/5), ("기모", 3/10)]

/-- The row walk of `_parse_tokens_block` over the cells below the
(token, weight, enabled) header; each cell is the raw sheet cell, passed
through `_cell_str` (strip, with missing cells as the empty string). -/
def tokens_loop (acc : List (String × ℚ)) : List (String × String × String) → List (String × ℚ)
  | [] => acc
  | r :: rest =>
    let tok := pyStripS r.1
    let w_s := pyStripS r.2.1
    let en_s := pyStripS r.2.2
    if tok = "" && w_s = "" && en_s = "" then acc
    else
      tokens_loop
        (if tok ≠ "" then
          let weight := pySafeFloat w_s 0
          let enabled := if en_s ≠ "" then pyToBool en_s else true
          if enabled && 0 < weight then upsert acc tok weight else acc
        else acc) rest

/-- `_parse_tokens_block`: walk the block; when nothing was kept, fall back
to the enabled built-in tokens. -/
def parse_tokens_block (rows : List (String × String × String)) : List (String × ℚ) :=
  let t := tokens_loop [] rows
  if t.isEmpty then DEFAULT_TOKENS_list else t

/-- The token half of `apply_precedence`: a non-empty CLI token dict wins
outright, else a non-empty spreadsheet dict, else the built-in table. -/
def apply_precedence_tokens (tokens_cli tokens_excel : List (String × ℚ)) :
    List (String × ℚ) :=
  if !tokens_cli.isEmpty then tokens_cli
  else if !tokens_excel.isEmpty then tokens_excel
  else DEFAULT_TOKENS_list

/-- The token rows kept by `_read_excel_config` (compute_scores.py): a row
survives when token and weight cells are non-null (weight given as its
`pd.to_numeric` value), the enabled cell is truthy when an enabled column
exists (a null enabled cell stringifies to "nan", which is falsy), and the
stripped token is non-empty.  No positivity condition is applied to the
weight. -/
def read_excel_config_tokens (has_en_col : Bool)
    (rows : List (Option String × Option ℚ × Option String)) : List (String × ℚ) :=
  rows.filterMap (fun r =>
    match r with
    | (some t, some w, en) =>
      if !has_en_col || (match en with | some e => pyToBool e | none => false) then
        let t2 := pyStripS t
        if t2 = "" then none else some (t2, w)
      else none
    | _ => none)

/-! ### Column inference (compute_scores.py) -/

structure Table where
  cols : List String
  rows : List (List String)
deriving Repr, DecidableEq

/-- `_detect_col`: first candidate with an exact case-insensitive match,
returning the original column name. -/
def detect_col (cols cands : List String) : Option String :=
  cands.findSome? (fun cand => cols.find? (fun c => pyLowerS c = pyLowerS cand))

/-- `_detect_col_fuzzy`: first column whose lower-cased name contains one of
the substrings. -/
def detect_col_fuzzy (cols subs : List String) : Option String :=
  cols.find? (fun name => subs.any (fun sub => substrB sub.toList (pyLowerS name).toList))

def strong_keyword_cols : List String :=
  ["keyword", "keyword_sanitized", "related_keyword", "expanded_keyword",
   "expanded", "expansion", "suggest", "suggestion", "candidate", "variant",
   "term", "query", "kw", "text", "title", "source",
   "확장키워드", "확장_키워드", "추천어", "연관키워드"]

def fuzzy_keyword_subs : List String :=
  ["keyword", "query", "term", "title", "suggest", "expand", "연관", "추천", "확장", "source"]

def keyword_col_blacklist : List String :=
  ["seed", "seed_index", "category", "cat", "idx", "id", "index", "group", "count", "rank"]

/-- The sampled string values of column `j` (`df.head(50)`, cells as
strings). -/
def col_values (t : Table) (j : Nat) : List String :=
  (t.rows.take 50).map (fun r => (r.get? j).getD "")

/-- The heuristic column score of `_guess_keyword_col`; `none` when the
sampled column has no non-empty value (the column is skipped). -/
def heuristic_score (values : List String) : Option ℚ :=
  let non_empty := values.filter (fun v => pyStripS v ≠ "")
  if non_empty.isEmpty then none
  else
    let avg_len : ℚ := ((non_empty.map (fun v => (v.length : ℚ))).sum) / ((max 1 non_empty.length : Nat) : ℚ)
    let uniq : ℚ := (non_empty.dedup.length : ℚ)
    let fill : ℚ := (non_empty.length : ℚ) / ((max 1 values.length : Nat) : ℚ)
    some (avg_len * (1/2 + 1/2 * fill) + (1/20) * uniq)

/-- The heuristic tier of `_guess_keyword_col`: best strictly-greater score
wins, ties keep the earlier column, `best_score` starts at -1. -/
def heuristic_pick (t : Table) : Option String :=
  (t.cols.enum.foldl
    (fun (best : Option String × ℚ) jc =>
      if keyword_col_blacklist.contains (pyLowerS jc.2) then best
      else
        match heuristic_score (col_values t jc.1) with
        | none => best
        | some sc => if best.2 < sc then (some jc.2, sc) else best)
    (none, -1)).1

/-- `_guess_keyword_col` (compute_scores.py): exact tier, then fuzzy tier,
then the value heuristic. -/
def guess_keyword_col (t : Table) : Option String :=
  match detect_col t.cols strong_keyword_cols with
  | some c => some c
  | none =>
    match detect_col_fuzzy t.cols fuzzy_keyword_subs with
    | some c => some c
    | none => heuristic_pick t

/-- `_guess_seed_col` (compute_scores.py). -/
def guess_seed_col (t : Table) : Option String :=
  match detect_col t.cols
      ["seed", "seed_index", "root", "parent", "group", "source_seed", "seed_name"] with
  | some c => some c
  | none => detect_col_fuzzy t.cols ["seed", "parent", "root", "group"]

/-- `_load_base` over the ordered candidate sources (`none` = file absent):
first existing source with a detected keyword column wins; if none has one,
the run aborts (`SystemExit`), modelled as `Except.error`. -/
def load_base_from : List (Option Table) → Except Unit (Table × String × Option String)
  | [] => .error ()
  | none :: rest => load_base_from rest
  | some t :: rest =>
    match guess_keyword_col t with
    | some c => .ok (t, c, guess_seed_col t)
    | none => load_base_from rest

def load_base (expanded_in sanitized_in : Option Table) :
    Except Unit (Table × String × Option String) :=
  load_base_from [expanded_in, sanitized_in]

/-! ### Shape predicates for collapsed text -/

/-- Every whitespace character is a plain space. -/
def allWS1 (l : List Char) : Bool := l.all (fun c => !isSp c || c == ' ')

/-- No two adjacent whitespace characters. -/
def noAdj : List Char → Bool
  | [] => true
  | c :: r => !(isSp c && hdSp r) && noAdj r

/-- No whitespace character immediately before a punctuation character. -/
def noWsP : List Char → Bool
  | [] => true
  | c :: r => !(isSp c && hdPunct r) && noWsP r

/-! ## Lemmas -/

theorem dropWhile_idem (p : Char → Bool) (l : List Char) :
    (l.dropWhile p).dropWhile p = l.dropWhile p := by
  induction l with
  | nil => rfl
  | cons a l ih =>
    by_cases h : p a = true
    · simp [List.dropWhile_cons, h, ih]
    · simp [List.dropWhile_cons, h]

theorem hdSp_dropWhile (l : List Char) : hdSp (l.dropWhile isSp) = false := by
  induction l with
  | nil => rfl
  | cons a l ih =>
    by_cases h : isSp a = true
    · simpa [List.dropWhile_cons, h] using ih
    · simp [List.dropWhile_cons, h, hdSp]

theorem dropWhile_of_hdSp_false (l : List Char) (h : hdSp l = false) :
    l.dropWhile isSp = l := by
  cases l with
  | nil => rfl
  | cons a l => simp only [hdSp] at h; simp [List.dropWhile_cons, h]

theorem dropTrail_cons (c : Char) (r : List Char) :
    dropTrail (c :: r) =
      match dropTrail r with
      | [] => if isSp c then [] else [c]
      | d :: t => c :: d :: t := rfl

theorem dropTrail_idem (l : List Char) : dropTrail (dropTrail l) = dropTrail l := by
  induction l with
  | nil => rfl
  | cons c r ih =>
    cases h : dropTrail r with
    | nil =>
      by_cases hc : isSp c = true
      · simp [dropTrail, h, hc]
      · simp [dropTrail, h, hc]
    | cons d t =>
      have ih' : dropTrail (d :: t) = d :: t := by rw [← h, ih, h]
      have e1 : dropTrail (c :: r) = c :: d :: t := by
        rw [dropTrail_cons, h]
      have e2 : dropTrail (c :: d :: t) = c :: d :: t := by
        rw [dropTrail_cons, ih']
      rw [e1, e2]

theorem hdSp_dropTrail (l : List Char) (h : hdSp (dropTrail l) = true) : hdSp l = true := by
  cases l with
  | nil => simp [dropTrail, hdSp] at h
  | cons c r =>
    cases hr : dropTrail r with
    | nil =>
      by_cases hc : isSp c = true
      · simpa [hdSp] using hc
      · simp [dropTrail, hr, hc, hdSp] at h
    | cons d t => simp only [dropTrail, hr, hdSp] at h ⊢; exact h

theorem hdPunct_dropTrail (l : List Char) (h : hdPunct (dropTrail l) = true) :
    hdPunct l = true := by
  cases l with
  | nil => simp [dropTrail, hdPunct] at h
  | cons c r =>
    cases hr : dropTrail r with
    | nil =>
      by_cases hc : isSp c = true
      · simp [dropTrail, hr, hc, hdPunct] at h
      · simp only [dropTrail, hr, hc] at h
        simpa [hdPunct] using h
    | cons d t => simp only [dropTrail, hr, hdPunct] at h ⊢; exact h

theorem pyStrip_idem (l : List Char) : pyStrip (pyStrip l) = pyStrip l := by
  unfold pyStrip
  have h1 : hdSp ((l.dropWhile isSp)) = false := hdSp_dropWhile l
  have h2 : hdSp (dropTrail (l.dropWhile isSp)) = false := by
    cases h : hdSp (dropTrail (l.dropWhile isSp)) with
    | false => rfl
    | true => exact absurd (hdSp_dropTrail _ h) (by simp [h1])
  rw [dropWhile_of_hdSp_false _ h2, dropTrail_idem]

theorem pyStripS_idem (s : String) : pyStripS (pyStripS s) = pyStripS s := by
  simp [pyStripS, pyStrip_idem]

/-! ### Claim C1 -/

/-- C1, counterexample: in the incremental aggregator
(`_row_dict_for_header`), a row whose two counts are both missing gets an
EMPTY `comp_combined` cell, not 0.0: the combined value is computed only
under `comp_c is not None or comp_n is not None`. -/
theorem C1_counterexample :
    (row_dict_for_default_header (fun n => (n : ℚ)) "2024-01-01T00:00:00+00:00"
        "seed0" "kw0" none none).comp_combined = none := by
  decide

/-- C1, amended: in `collect_competition` the combined metric is always
present and equals the 6-decimal rounding of `log1p a + log1p b` with a
missing count contributing `log1p 0 = 0`; in the incremental aggregator the
combined cell equals `log1p (a or 0) + log1p (b or 0)` when at least one
count is present, and is left empty when both counts are missing. -/
theorem C1_combined_amended (log1p : ℕ → ℚ) (h0 : log1p 0 = 0)
    (a b : Option Nat) (ts seed kw : String) :
    (collect_combined log1p a b = round6 (log1p (a.getD 0) + log1p (b.getD 0)))
    ∧ ((a.isSome || b.isSome) = true →
        (row_dict_for_default_header log1p ts seed kw a b).comp_combined =
          some (log1p (a.getD 0) + log1p (b.getD 0)))
    ∧ (a = none → b = none →
        (row_dict_for_default_header log1p ts seed kw a b).comp_combined = none) := by
  cases a <;> cases b <;>
    simp [collect_combined, row_dict_for_default_header, h0, Option.getD]

/-- C1, witness for the amended statement at `log1p := Nat.cast`,
one count present and one missing. -/
theorem C1_witness :
    collect_combined (fun n => (n : ℚ)) (some 2) none = round6 ((2 : ℚ) + 0)
    ∧ (row_dict_for_default_header (fun n => (n : ℚ)) "t" "s" "k" (some 2)
        none).comp_combined = some ((2 : ℚ) + 0) := by
  have h := C1_combined_amended (fun n => (n : ℚ)) (by norm_num) (some 2) none "t" "s" "k"
  exact ⟨by simpa using h.1, by simpa using h.2.1 (by decide)⟩

/-! ### Claim C4 -/

/-- C4: for each of the three weight-resolution functions, a pair with
positive total is renormalised to sum exactly 1, and a pair with
non-positive total falls back to the built-in defaults (0.55, 0.45),
themselves normalised to sum 1. -/
theorem C4_weights_sum_one :
    (∀ (cli_i cli_c : Option ℚ) (excel_i excel_c : ℚ),
      (0 < cli_i.getD excel_i + cli_c.getD excel_c →
        (apply_precedence_weights cli_i cli_c excel_i excel_c).1 +
          (apply_precedence_weights cli_i cli_c excel_i excel_c).2 = 1)
      ∧ (cli_i.getD excel_i + cli_c.getD excel_c ≤ 0 →
          apply_precedence_weights cli_i cli_c excel_i excel_c = (11/20, 9/20)))
    ∧ (∀ w_i w_c : ℚ,
      (0 < w_i + w_c →
        (parse_weights_block_norm w_i w_c).1 + (parse_weights_block_norm w_i w_c).2 = 1)
      ∧ (w_i + w_c ≤ 0 → parse_weights_block_norm w_i w_c = (11/20, 9/20)))
    ∧ (∀ a b : ℚ,
      (0 < a + b →
        (read_excel_weights (some a) (some b)).1 + (read_excel_weights (some a) (some b)).2 = 1)
      ∧ (a + b ≤ 0 → read_excel_weights (some a) (some b) = (11/20, 9/20))) := by
  refine ⟨fun cli_i cli_c excel_i excel_c => ⟨fun h => ?_, fun h => ?_⟩,
          fun w_i w_c => ⟨fun h => ?_, fun h => ?_⟩,
          fun a b => ⟨fun h => ?_, fun h => ?_⟩⟩
  · simp only [apply_precedence_weights, if_neg (not_le.mpr h)]
    rw [div_add_div_same, div_self (ne_of_gt h)]
  · simp only [apply_precedence_weights, if_pos h]; norm_num
  · simp only [parse_weights_block_norm, if_neg (not_le.mpr h)]
    rw [div_add_div_same, div_self (ne_of_gt h)]
  · simp only [parse_weights_block_norm, if_pos h]; norm_num
  · simp only [read_excel_weights, if_neg (not_le.mpr h)]
    rw [div_add_div_same, div_self (ne_of_gt h)]
  · simp only [read_excel_weights, if_pos h]

/-- C4, witness: CLI overrides (1, 1) renormalise to (1/2, 1/2), which sums
to 1; CLI overrides (-1, 0) have non-positive total and fall back to the
defaults. -/
theorem C4_witness :
    ((apply_precedence_weights (some 1) (some 1) 0 0).1 +
      (apply_precedence_weights (some 1) (some 1) 0 0).2 = 1)
    ∧ apply_precedence_weights (some (-1)) (some 0) 0 0 = (11/20, 9/20) := by
  refine ⟨(C4_weights_sum_one.1 (some 1) (some 1) 0 0).1 (by norm_num),
          (C4_weights_sum_one.1 (some (-1)) (some 0) 0 0).2 (by norm_num)⟩

/-! ### Claim C7 -/

/-- C7: on the spec test vector, the word list is processed longest-first,
so the sanitized text contains neither the two-word phrase nor its shorter
overlapping substring. -/
theorem C7_longest_first_concrete :
    (sanitize_text "무료 배송 이벤트" ["무료 배송", "무료"] []).1 = "이벤트".toList
    ∧ substrB "무료 배송".toList ((sanitize_text "무료 배송 이벤트" ["무료 배송", "무료"] []).1) = false
    ∧ substrB "무료".toList ((sanitize_text "무료 배송 이벤트" ["무료 배송", "무료"] []).1) = false := by
  refine ⟨by decide, by decide, by decide⟩

/-! ### Claim C10 -/

/-- C10: `sanitize_df` keeps the row count and positional order, leaves the
keyword and category columns untouched, and emits exactly one audit record
per input row, indexed by the row position. -/
theorem C10_sanitize_df_frame (rows : List SeedRow) (words symbols : List String) :
    ((sanitize_df rows words symbols).1.length = rows.length)
    ∧ ((sanitize_df rows words symbols).2.length = rows.length)
    ∧ (∀ i (h : i < rows.length),
        (((sanitize_df rows words symbols).1.get ⟨i, by
            simpa [sanitize_df] using h⟩).keyword = (rows.get ⟨i, h⟩).keyword
        ∧ ((sanitize_df rows words symbols).1.get ⟨i, by
            simpa [sanitize_df] using h⟩).category = (rows.get ⟨i, h⟩).category)
        ∧ ((sanitize_df rows words symbols).2.get ⟨i, by
            simpa [sanitize_df] using h⟩).row_index = i) := by
  refine ⟨by simp [sanitize_df], by simp [sanitize_df], fun i h => ⟨⟨?_, ?_⟩, ?_⟩⟩ <;>
    simp [sanitize_df, List.get_eq_getElem]

/-- C10, witness at a one-row table. -/
theorem C10_witness :
    ((sanitize_df [⟨"무료 니트", "cat"⟩] ["무료"] []).1.length = 1)
    ∧ ((sanitize_df [⟨"무료 니트", "cat"⟩] ["무료"] []).1.get ⟨0, by decide⟩).keyword = "무료 니트"
    ∧ ((sanitize_df [⟨"무료 니트", "cat"⟩] ["무료"] []).2.get ⟨0, by decide⟩).row_index = 0 := by
  have h := C10_sanitize_df_frame [⟨"무료 니트", "cat"⟩] ["무료"] []
  exact ⟨h.1, (h.2.2 0 (by decide)).1.1, (h.2.2 0 (by decide)).2⟩

/-! ### Claim C6 -/

theorem upsert_pos (l : List (String × ℚ)) (k : String) (v : ℚ)
    (hl : ∀ q ∈ l, 0 < q.2) (hv : 0 < v) : ∀ p ∈ upsert l k v, 0 < p.2 := by
  intro p hp
  unfold upsert at hp
  by_cases h : l.any (fun p => p.1 = k) = true
  · rw [if_pos h] at hp
    obtain ⟨q, hq, hqe⟩ := List.mem_map.mp hp
    by_cases hk : q.1 = k
    · rw [if_pos hk] at hqe; rw [← hqe]; exact hv
    · rw [if_neg hk] at hqe; rw [← hqe]; exact hl q hq
  · rw [if_neg h] at hp
    rcases List.mem_append.mp hp with h1 | h1
    · exact hl p h1
    · simp only [List.mem_singleton] at h1; rw [h1]; exact hv

theorem tokens_loop_pos (rows : List (String × String × String)) :
    ∀ acc, (∀ q ∈ acc, 0 < q.2) → ∀ p ∈ tokens_loop acc rows, 0 < p.2 := by
  induction rows with
  | nil => intro acc hacc p hp; exact hacc p hp
  | cons r rest ih =>
    intro acc hacc p hp
    rw [tokens_loop] at hp
    by_cases hbrk :
        (pyStripS r.1 = "" && pyStripS r.2.1 = "" && pyStripS r.2.2 = "") = true
    · rw [if_pos hbrk] at hp; exact hacc p hp
    · rw [if_neg hbrk] at hp
      by_cases htok : pyStripS r.1 ≠ ""
      · rw [if_pos htok] at hp
        by_cases hkeep :
            ((if pyStripS r.2.2 ≠ "" then pyToBool (pyStripS r.2.2) else true) &&
              0 < pySafeFloat (pyStripS r.2.1) 0) = true
        · rw [if_pos hkeep] at hp
          have hw : 0 < pySafeFloat (pyStripS r.2.1) 0 :=
            of_decide_eq_true (Bool.and_elim_right hkeep)
          exact ih _ (upsert_pos acc _ _ hacc hw) p hp
        · rw [if_neg hkeep] at hp; exact ih _ hacc p hp
      · rw [if_neg htok] at hp; exact ih _ hacc p hp

theorem DEFAULT_TOKENS_pos : ∀ p ∈ DEFAULT_TOKENS_list, 0 < p.2 := by
  intro p hp
  simp only [DEFAULT_TOKENS_list, List.mem_cons, List.mem_singleton] at hp
  rcases hp with h | h | h | h | h | h | h | h | h | h | h <;> first
    | (rw [h]; norm_num)
    | exact absurd h (by simp)

/-- C6, counterexample: the token reader of `_read_excel_config`
(compute_scores.py) keeps an enabled row whose weight is -1, so token
resolution does not keep only strictly positive weights. -/
theorem C6_counterexample :
    read_excel_config_tokens false [(some "니트", some (-1), none)] = [("니트", -1)]
    ∧ ¬ (0 < (-1 : ℚ)) := by
  exact ⟨by decide, by norm_num⟩

/-- C6, amended: the pipeline config resolver (`_parse_tokens_block`) keeps
only strictly positive weights and falls back to the built-in table when
nothing was kept; a non-empty CLI token dict fully replaces the spreadsheet
dict; but the score computer's config reader
(`_read_excel_config`) keeps every enabled row with a numeric weight,
with no positivity filter. -/
theorem C6_token_resolution_amended :
    (∀ rows p, p ∈ parse_tokens_block rows → 0 < p.2)
    ∧ (∀ (cli excel : List (String × ℚ)), cli ≠ [] → apply_precedence_tokens cli excel = cli)
    ∧ apply_precedence_tokens [] [] = DEFAULT_TOKENS_list
    ∧ (∀ (t : String) (w : ℚ), pyStripS t ≠ "" →
        read_excel_config_tokens false [(some t, some w, none)] = [(pyStripS t, w)]) := by
  refine ⟨?_, ?_, ?_, ?_⟩
  · intro rows p hp
    rw [parse_tokens_block] at hp
    by_cases h : (tokens_loop [] rows).isEmpty = true
    · rw [if_pos h] at hp; exact DEFAULT_TOKENS_pos p hp
    · rw [if_neg h] at hp; exact tokens_loop_pos rows [] (by intro q hq; cases hq) p hp
  · intro cli excel hne
    simp [apply_precedence_tokens, List.isEmpty_iff, hne]
  · rfl
  · intro t w ht
    simp [read_excel_config_tokens, ht]

/-- C6, witness: one spreadsheet row with weight 2 resolves to a kept token
with positive weight; a CLI dict replaces a different excel dict. -/
theorem C6_witness :
    (0 : ℚ) < (("a", (2 : ℚ)) : String × ℚ).2
    ∧ apply_precedence_tokens [("x", 1)] [("y", 3)] = [("x", 1)]
    ∧ read_excel_config_tokens false [(some "니트", some (-1), none)] = [("니트", -1)] := by
  refine ⟨C6_token_resolution_amended.1 [("a", "2", "")] ("a", 2) ?_,
          C6_token_resolution_amended.2.1 [("x", 1)] [("y", 3)] (by simp),
          C6_token_resolution_amended.2.2.2 "니트" (-1) (by decide)⟩
  · show ("a", (2 : ℚ)) ∈ parse_tokens_block [("a", "2", "")]
    decide

/-! ### Claim C3 -/

theorem foldl_min_le_init (r : List ℚ) : ∀ i : ℚ, r.foldl min i ≤ i := by
  induction r with
  | nil => intro i; exact le_refl i
  | cons a r ih => intro i; exact le_trans (ih (min i a)) (min_le_left i a)

theorem foldl_min_le_mem (r : List ℚ) : ∀ (i y : ℚ), y ∈ r → r.foldl min i ≤ y := by
  induction r with
  | nil => intro i y h; cases h
  | cons a r ih =>
    intro i y h
    rcases List.mem_cons.mp h with h | h
    · rw [h]; exact le_trans (foldl_min_le_init r (min i a)) (min_le_right i a)
    · exact ih (min i a) y h

theorem le_foldl_max_init (r : List ℚ) : ∀ i : ℚ, i ≤ r.foldl max i := by
  induction r with
  | nil => intro i; exact le_refl i
  | cons a r ih => intro i; exact le_trans (le_max_left i a) (ih (max i a))

theorem le_foldl_max_mem (r : List ℚ) : ∀ (i y : ℚ), y ∈ r → y ≤ r.foldl max i := by
  induction r with
  | nil => intro i y h; cases h
  | cons a r ih =>
    intro i y h
    rcases List.mem_cons.mp h with h | h
    · rw [h]; exact le_trans (le_max_right i a) (le_foldl_max_init r (max i a))
    · exact ih (max i a) y h

theorem minmax_mem_bounds (l : List ℚ) (x : ℚ) (hx : x ∈ minmax l) :
    0 ≤ x ∧ x ≤ 1 := by
  cases l with
  | nil => cases hx
  | cons a r =>
    rw [minmax] at hx
    by_cases h : r.foldl max a - r.foldl min a = 0
    · rw [if_pos h] at hx
      obtain ⟨y, _, hy⟩ := List.mem_map.mp hx
      rw [← hy]; norm_num
    · rw [if_neg h] at hx
      obtain ⟨y, hymem, hy⟩ := List.mem_map.mp hx
      have hmn : r.foldl min a ≤ y := by
        rcases List.mem_cons.mp hymem with hya | hyr
        · rw [hya]; exact foldl_min_le_init r a
        · exact foldl_min_le_mem r a y hyr
      have hmx : y ≤ r.foldl max a := by
        rcases List.mem_cons.mp hymem with hya | hyr
        · rw [hya]; exact le_foldl_max_init r a
        · exact le_foldl_max_mem r a y hyr
      have hpos : 0 < r.foldl max a - r.foldl min a :=
        lt_of_le_of_ne (by linarith) (Ne.symm h)
      rw [← hy]
      constructor
      · exact div_nonneg (by linarith) (le_of_lt hpos)
      · rw [div_le_one hpos]; linarith

theorem mem_zipWith_imp {α β γ : Type} (f : α → β → γ) :
    ∀ (as : List α) (bs : List β) (x : γ), x ∈ List.zipWith f as bs →
      ∃ a, a ∈ as ∧ ∃ b, b ∈ bs ∧ x = f a b := by
  intro as
  induction as with
  | nil => intro bs x h; cases h
  | cons a as ih =>
    intro bs x h
    cases bs with
    | nil => cases h
    | cons b bs =>
      rcases List.mem_cons.mp h with h | h
      · exact ⟨a, List.mem_cons_self a as, b, List.mem_cons_self b bs, h⟩
      · obtain ⟨a2, ha, b2, hb, he⟩ := ih bs x h
        exact ⟨a2, List.mem_cons_of_mem a ha, b2, List.mem_cons_of_mem b hb, he⟩

/-- C3, counterexample: the resolved weights may be negative while still
summing to 1 (config W_intent = -1, W_competition = 2), and then a row with
normalised inputs in [0, 1] scores 200 and another scores -100 — outside
[0, 100].  The claim needs weight nonnegativity, which resolution does not
guarantee. -/
theorem C3_counterexample :
    (read_excel_weights (some (-1)) (some 2)).1 +
      (read_excel_weights (some (-1)) (some 2)).2 = 1
    ∧ compute_score_rows (read_excel_weights (some (-1)) (some 2)).1
        (read_excel_weights (some (-1)) (some 2)).2 [(0, 0), (1, 1)] = [200, -100]
    ∧ ¬ ((200 : ℚ) ≤ 100) := by
  have he : read_excel_weights (some (-1)) (some 2) = (-1, 2) := by
    norm_num [read_excel_weights]
  exact ⟨by rw [he]; norm_num, by rw [he]; norm_num [compute_score_rows, minmax],
         by norm_num⟩

/-- C3, amended: every output score equals
`100 * (w_int * intent_norm + w_cmp * (1 - competition_norm))` over the
min-max normalised columns, and when additionally both resolved weights are
NONNEGATIVE and sum to 1, every score lies in [0, 100]. -/
theorem C3_score_bounds_amended (w_int w_cmp : ℚ) (rows : List (ℚ × ℚ)) :
    (compute_score_rows w_int w_cmp rows =
      List.zipWith (fun i c => 100 * (w_int * i + w_cmp * (1 - c)))
        (minmax (rows.map Prod.fst)) (minmax (rows.map Prod.snd)))
    ∧ (0 ≤ w_int → 0 ≤ w_cmp → w_int + w_cmp = 1 →
        ∀ sc ∈ compute_score_rows w_int w_cmp rows, 0 ≤ sc ∧ sc ≤ 100) := by
  refine ⟨rfl, fun hi hc hs sc hsc => ?_⟩
  obtain ⟨i, hi', c, hc', he⟩ := mem_zipWith_imp _ _ _ _ hsc
  have hib := minmax_mem_bounds _ _ hi'
  have hcb := minmax_mem_bounds _ _ hc'
  rw [he]
  constructor
  · nlinarith [hib.1, hib.2, hcb.1, hcb.2]
  · nlinarith [hib.1, hib.2, hcb.1, hcb.2]

/-- C3, witness: weights (1, 0) and a single all-zero row give score 0,
inside the bound. -/
theorem C3_witness :
    (0 : ℚ) ∈ compute_score_rows 1 0 [(0, 0)]
    ∧ (0 ≤ (0 : ℚ) ∧ (0 : ℚ) ≤ 100) := by
  have hm : (0 : ℚ) ∈ compute_score_rows 1 0 [(0, 0)] := by
    norm_num [compute_score_rows, minmax]
  exact ⟨hm,
    (C3_score_bounds_amended 1 0 [(0, 0)]).2 (by norm_num) (by norm_num) (by norm_num) 0 hm⟩

/-! ### Claim C8 -/

/-- C8, counterexample: two tables with IDENTICAL headers but different cell
values make the heuristic tier pick different keyword columns, so the
inference is not determined by the headers alone. -/
theorem C8_counterexample :
    (Table.mk ["alpha", "beta"] [["aaaaaaaa", "b"]]).cols =
      (Table.mk ["alpha", "beta"] [["a", "bbbbbbbb"]]).cols
    ∧ guess_keyword_col (Table.mk ["alpha", "beta"] [["aaaaaaaa", "b"]]) = some "alpha"
    ∧ guess_keyword_col (Table.mk ["alpha", "beta"] [["a", "bbbbbbbb"]]) = some "beta" := by
  have hs8a : heuristic_score ["aaaaaaaa"] = some (161/20) := by
    rw [heuristic_score]
    rw [show (["aaaaaaaa"].filter (fun v => pyStripS v ≠ "")) = ["aaaaaaaa"] from by decide]
    norm_num [show ("aaaaaaaa".length) = 8 from by decide]
  have hs1b : heuristic_score ["b"] = some (21/20) := by
    rw [heuristic_score]
    rw [show (["b"].filter (fun v => pyStripS v ≠ "")) = ["b"] from by decide]
    norm_num [show ("b".length) = 1 from by decide]
  have hs1a : heuristic_score ["a"] = some (21/20) := by
    rw [heuristic_score]
    rw [show (["a"].filter (fun v => pyStripS v ≠ "")) = ["a"] from by decide]
    norm_num [show ("a".length) = 1 from by decide]
  have hs8b : heuristic_score ["bbbbbbbb"] = some (161/20) := by
    rw [heuristic_score]
    rw [show (["bbbbbbbb"].filter (fun v => pyStripS v ≠ "")) = ["bbbbbbbb"] from by decide]
    norm_num [show ("bbbbbbbb".length) = 8 from by decide]
  refine ⟨rfl, ?_, ?_⟩
  · rw [guess_keyword_col]
    rw [show detect_col ["alpha", "beta"] strong_keyword_cols = none from by decide]
    rw [show detect_col_fuzzy ["alpha", "beta"] fuzzy_keyword_subs = none from by decide]
    rw [heuristic_pick]
    rw [show (["alpha", "beta"] : List String).enum = [(0, "alpha"), (1, "beta")] from by decide]
    rw [List.foldl_cons, List.foldl_cons, List.foldl_nil]
    rw [show keyword_col_blacklist.contains (pyLowerS "alpha") = false from by decide]
    rw [show keyword_col_blacklist.contains (pyLowerS "beta") = false from by decide]
    rw [show col_values ⟨["alpha", "beta"], [["aaaaaaaa", "b"]]⟩ 0 = ["aaaaaaaa"] from by decide,
       show col_values ⟨["alpha", "beta"], [["aaaaaaaa", "b"]]⟩ 1 = ["b"] from by decide]
    rw [hs8a, hs1b]
    norm_num
  · rw [guess_keyword_col]
    rw [show detect_col ["alpha", "beta"] strong_keyword_cols = none from by decide]
    rw [show detect_col_fuzzy ["alpha", "beta"] fuzzy_keyword_subs = none from by decide]
    rw [heuristic_pick]
    rw [show (["alpha", "beta"] : List String).enum = [(0, "alpha"), (1, "beta")] from by decide]
    rw [List.foldl_cons, List.foldl_cons, List.foldl_nil]
    rw [show keyword_col_blacklist.contains (pyLowerS "alpha") = false from by decide]
    rw [show keyword_col_blacklist.contains (pyLowerS "beta") = false from by decide]
    rw [show col_values ⟨["alpha", "beta"], [["a", "bbbbbbbb"]]⟩ 0 = ["a"] from by decide,
       show col_values ⟨["alpha", "beta"], [["a", "bbbbbbbb"]]⟩ 1 = ["bbbbbbbb"] from by decide]
    rw [hs1a, hs8b]
    norm_num

/-- C8, amended: the exact and fuzzy detection tiers depend only on the
headers, so whenever one of them succeeds, tables with identical headers
select the same keyword column; the heuristic tier, however, also reads the
sampled cell values, so identical headers alone do not determine the choice.
The hard error of `_load_base` is raised exactly when no existing source has
any detectable keyword column. -/
theorem C8_detection_amended :
    (∀ t1 t2 : Table, t1.cols = t2.cols →
      (detect_col t1.cols strong_keyword_cols ≠ none ∨
        detect_col_fuzzy t1.cols fuzzy_keyword_subs ≠ none) →
      guess_keyword_col t1 = guess_keyword_col t2)
    ∧ (∀ e s : Option Table, load_base e s = .error () ↔
        ((∀ t, e = some t → guess_keyword_col t = none) ∧
         (∀ t, s = some t → guess_keyword_col t = none))) := by
  constructor
  · intro t1 t2 hc hd
    rw [guess_keyword_col, guess_keyword_col, hc]
    cases hdc : detect_col t2.cols strong_keyword_cols with
    | some c => rfl
    | none =>
      cases hdf : detect_col_fuzzy t2.cols fuzzy_keyword_subs with
      | some c => rfl
      | none =>
        rw [hc] at hd
        rcases hd with h | h
        · exact absurd hdc h
        · exact absurd hdf h
  · intro e s
    cases e with
    | none =>
      cases s with
      | none => simp [load_base, load_base_from]
      | some t =>
        cases hg : guess_keyword_col t with
        | none => simp [load_base, load_base_from, hg]
        | some c => simp [load_base, load_base_from, hg]
    | some t1 =>
      cases hg1 : guess_keyword_col t1 with
      | some c =>
        cases s with
        | none => simp [load_base, load_base_from, hg1]
        | some t2 => simp [load_base, load_base_from, hg1]
      | none =>
        cases s with
        | none => simp [load_base, load_base_from, hg1]
        | some t2 =>
          cases hg2 : guess_keyword_col t2 with
          | none => simp [load_base, load_base_from, hg1, hg2]
          | some c => simp [load_base, load_base_from, hg1, hg2]

/-- C8, witness: when the exact tier matches the header "keyword", two
tables with that header and different values get the same column; and
`_load_base` with both sources absent errors out. -/
theorem C8_witness :
    guess_keyword_col (Table.mk ["keyword"] [["a"]]) =
      guess_keyword_col (Table.mk ["keyword"] [["b"]])
    ∧ load_base none none = .error () := by
  refine ⟨C8_detection_amended.1 _ _ rfl (Or.inl (by decide)),
          (C8_detection_amended.2 none none).mpr ⟨?_, ?_⟩⟩
  · intro t ht; cases ht
  · intro t ht; cases ht

/-! ### Claim C5 -/

theorem string_mk_toList (s : String) : String.mk s.toList = s := rfl

theorem iter_input_rows_fix (raw : List (String × String)) :
    ∀ p ∈ iter_input_rows raw,
      String.mk (pyStrip p.1.toList) = p.1 ∧ String.mk (pyStrip p.2.toList) = p.2 := by
  intro p hp
  obtain ⟨a, _, hfa⟩ := List.mem_filterMap.mp hp
  simp only [iter_input_rows] at hfa
  by_cases hk : (pyStrip a.2.toList).isEmpty = true
  · rw [if_pos hk] at hfa; cases hfa
  · rw [if_neg hk] at hfa
    have h1 : p.1 = String.mk (pyStrip a.1.toList) := by
      rw [← Option.some_inj.mp hfa]
    have h2 : p.2 = String.mk (pyStrip a.2.toList) := by
      rw [← Option.some_inj.mp hfa]
    constructor
    · rw [h1]; show String.mk (pyStrip (pyStrip a.1.toList)) = _
      rw [pyStrip_idem]
    · rw [h2]; show String.mk (pyStrip (pyStrip a.2.toList)) = _
      rw [pyStrip_idem]

/-- C5: starting from no output file, a completed aggregator run followed by
a second run on the same input appends zero rows: every input pair is found
in the key set rebuilt from the first run's output (default header) and is
skipped.  Quantified over the raw input rows and over the (possibly
different) fetch results of the two runs. -/
theorem C5_resume_no_new_rows (raw : List (String × String)) (log1p : ℕ → ℚ)
    (ts1 ts2 : String) (oracle1 oracle2 : String → Option Nat × Option Nat) :
    fetch_and_append_rows log1p ts2
      (read_existing_keys
        (fetch_and_append_rows log1p ts1 [] (iter_input_rows raw) oracle1))
      (iter_input_rows raw) oracle2 = [] := by
  have hrows1 :
      fetch_and_append_rows log1p ts1 [] (iter_input_rows raw) oracle1 =
        (iter_input_rows raw).map
          (fun p => row_dict_for_default_header log1p ts1 p.1 p.2
            (oracle1 p.2).1 (oracle1 p.2).2) := by
    unfold fetch_and_append_rows
    rw [List.filter_eq_self.mpr]
    intro p _
    simp [List.contains]
  rw [hrows1]
  unfold fetch_and_append_rows
  rw [show ((iter_input_rows raw).filter (fun p =>
      !((read_existing_keys ((iter_input_rows raw).map
          (fun p => row_dict_for_default_header log1p ts1 p.1 p.2
            (oracle1 p.2).1 (oracle1 p.2).2))).contains p))) = [] from ?_]
  · rfl
  · rw [List.filter_eq_nil_iff]
    intro p hp
    have hfix := iter_input_rows_fix raw p hp
    have hmem : p ∈ read_existing_keys ((iter_input_rows raw).map
        (fun p => row_dict_for_default_header log1p ts1 p.1 p.2
          (oracle1 p.2).1 (oracle1 p.2).2)) := by
      unfold read_existing_keys
      rw [List.map_map]
      refine List.mem_map.mpr ⟨p, hp, ?_⟩
      show (String.mk (pyStrip p.1.toList), String.mk (pyStrip p.2.toList)) = p
      rw [hfix.1, hfix.2]
    simp [List.contains, List.elem_eq_mem, hmem]

/-! ### Shape lemmas for the collapse passes -/

theorem allWS1_nil : allWS1 [] = true := rfl

theorem allWS1_cons (c : Char) (r : List Char) :
    allWS1 (c :: r) = ((!isSp c || c == ' ') && allWS1 r) := by
  simp [allWS1]

theorem noAdj_cons (c : Char) (r : List Char) :
    noAdj (c :: r) = (!(isSp c && hdSp r) && noAdj r) := rfl

theorem noWsP_cons (c : Char) (r : List Char) :
    noWsP (c :: r) = (!(isSp c && hdPunct r) && noWsP r) := rfl

theorem p2s_cons (c : Char) (r : List Char) :
    p2s (c :: r) = if isSp c && hdPunct (p2s r) then p2s r else c :: p2s r := rfl

theorem hdSp_cws2_true (l : List Char) : hdSp (cws2 true l) = false := by
  induction l with
  | nil => rfl
  | cons c r ih =>
    by_cases hc : isSp c = true
    · simpa [cws2, hc] using ih
    · simp [cws2, hc, hdSp]

theorem allWS1_cws2 (l : List Char) : ∀ b, allWS1 (cws2 b l) = true := by
  induction l with
  | nil => intro b; rfl
  | cons c r ih =>
    intro b
    by_cases hc : isSp c = true
    · cases b with
      | true => simpa [cws2, hc] using ih true
      | false =>
        have e : cws2 false (c :: r) = ' ' :: cws2 true r := by simp [cws2, hc]
        rw [e, allWS1_cons, ih true]
        simp
    · have e : cws2 b (c :: r) = c :: cws2 false r := by simp [cws2, hc]
      rw [e, allWS1_cons, ih false]
      simp [hc]

theorem noAdj_cws2 (l : List Char) : ∀ b, noAdj (cws2 b l) = true := by
  induction l with
  | nil => intro b; rfl
  | cons c r ih =>
    intro b
    by_cases hc : isSp c = true
    · cases b with
      | true => simpa [cws2, hc] using ih true
      | false =>
        have e : cws2 false (c :: r) = ' ' :: cws2 true r := by simp [cws2, hc]
        rw [e, noAdj_cons, ih true, hdSp_cws2_true]
        simp
    · have e : cws2 b (c :: r) = c :: cws2 false r := by simp [cws2, hc]
      rw [e, noAdj_cons, ih false]
      simp [hc]

theorem hdSp_p2s (l : List Char) (h : hdSp (p2s l) = true) : hdSp l = true := by
  cases l with
  | nil => simp [p2s, hdSp] at h
  | cons c r =>
    by_cases hcond : (isSp c && hdPunct (p2s r)) = true
    · simp only [hdSp]
      simp only [Bool.and_eq_true] at hcond
      exact hcond.1
    · rw [p2s_cons, if_neg hcond] at h
      simp only [hdSp] at h ⊢
      exact h

theorem allWS1_p2s (l : List Char) (h : allWS1 l = true) : allWS1 (p2s l) = true := by
  induction l with
  | nil => rfl
  | cons c r ih =>
    rw [allWS1_cons, Bool.and_eq_true] at h
    have ihr := ih h.2
    rw [p2s_cons]
    by_cases hcond : (isSp c && hdPunct (p2s r)) = true
    · rw [if_pos hcond]; exact ihr
    · rw [if_neg hcond, allWS1_cons, h.1, ihr]
      rfl

theorem noAdj_p2s (l : List Char) (h : noAdj l = true) : noAdj (p2s l) = true := by
  induction l with
  | nil => rfl
  | cons c r ih =>
    rw [noAdj_cons, Bool.and_eq_true] at h
    have ihr := ih h.2
    rw [p2s_cons]
    by_cases hcond : (isSp c && hdPunct (p2s r)) = true
    · rw [if_pos hcond]; exact ihr
    · rw [if_neg hcond, noAdj_cons, ihr]
      have hpair : (isSp c && hdSp (p2s r)) = false := by
        by_cases hc : isSp c = true
        · cases hh : hdSp (p2s r) with
          | false => simp [hc, hh]
          | true =>
            have h2 := hdSp_p2s r hh
            rw [hc, h2] at h
            simp at h
        · simp [hc]
      rw [hpair]
      rfl

theorem noWsP_p2s (l : List Char) : noWsP (p2s l) = true := by
  induction l with
  | nil => rfl
  | cons c r ih =>
    rw [p2s_cons]
    by_cases hcond : (isSp c && hdPunct (p2s r)) = true
    · rw [if_pos hcond]; exact ih
    · rw [if_neg hcond, noWsP_cons, ih]
      simp only [Bool.not_eq_true] at hcond
      rw [hcond]
      rfl

theorem hdSp_p3s0 (l : List Char) : hdSp (p3s 0 l) = hdSp l := by
  cases l with
  | nil => rfl
  | cons c r =>
    by_cases hc : isSp c = true
    · simp [p3s, hc, hdSp]
    · simp [p3s, hc, hdSp]

theorem hdPunct_p3s0 (l : List Char) : hdPunct (p3s 0 l) = hdPunct l := by
  cases l with
  | nil => rfl
  | cons c r =>
    by_cases hc : isSp c = true
    · simp [p3s, hc, hdPunct]
    · simp [p3s, hc, hdPunct]

theorem p3s_st_irrel (l : List Char) (h : hdSp l = false) (st st' : Nat) :
    p3s st l = p3s st' l := by
  cases l with
  | nil => rfl
  | cons c r =>
    simp only [hdSp] at h
    simp [p3s, h]

theorem p3s0_sp_cons (c : Char) (r : List Char) (hc : isSp c = true) :
    p3s 0 (c :: r) = c :: p3s 0 r := by simp [p3s, hc]

theorem p3s1_sp_cons (c : Char) (r : List Char) (hc : isSp c = true) :
    p3s 1 (c :: r) = ' ' :: p3s 2 r := by simp [p3s, hc]

theorem p3s_nonsp_cons (st : Nat) (c : Char) (r : List Char) (hc : isSp c = false) :
    p3s st (c :: r) = c :: p3s (if isPunct c then 1 else 0) r := by simp [p3s, hc]

theorem allWS1_p3s (l : List Char) (h : allWS1 l = true) :
    ∀ st, allWS1 (p3s st l) = true := by
  induction l with
  | nil => intro st; rfl
  | cons c r ih =>
    intro st
    rw [allWS1_cons, Bool.and_eq_true] at h
    have ihr := ih h.2
    by_cases hc : isSp c = true
    · by_cases h1 : st = 1
      · rw [h1, p3s1_sp_cons c r hc, allWS1_cons, ihr 2]
        simp
      · by_cases h2 : st = 2
        · rw [h2, show p3s 2 (c :: r) = p3s 2 r from by simp [p3s, hc]]
          exact ihr 2
        · rw [show p3s st (c :: r) = c :: p3s 0 r from by simp [p3s, hc, h1, h2],
              allWS1_cons, ihr 0, h.1]
          rfl
    · rw [p3s_nonsp_cons st c r (by simpa using hc), allWS1_cons, ihr _, h.1]
      rfl

theorem noAdj_p3s (l : List Char) (h1 : allWS1 l = true) (h2 : noAdj l = true)
    (h3 : noWsP l = true) :
    noAdj (p3s 0 l) = true ∧ noAdj (p3s 1 l) = true := by
  induction l with
  | nil => exact ⟨rfl, rfl⟩
  | cons c r ih =>
    rw [allWS1_cons, Bool.and_eq_true] at h1
    rw [noAdj_cons, Bool.and_eq_true] at h2
    rw [noWsP_cons, Bool.and_eq_true] at h3
    have ihr := ih h1.2 h2.2 h3.2
    by_cases hc : isSp c = true
    · have hr : hdSp r = false := by
        cases hr : hdSp r with
        | false => rfl
        | true => rw [hc, hr] at h2; simp at h2
      constructor
      · rw [p3s0_sp_cons c r hc, noAdj_cons, ihr.1, hdSp_p3s0 r, hr]
        simp
      · rw [p3s1_sp_cons c r hc, p3s_st_irrel r hr 2 0, noAdj_cons, ihr.1,
            hdSp_p3s0 r, hr]
        simp
    · have hcf : isSp c = false := by simpa using hc
      have key : noAdj (p3s (if isPunct c then 1 else 0) r) = true := by
        by_cases hp : isPunct c = true
        · simpa [hp] using ihr.2
        · simpa [hp] using ihr.1
      constructor <;>
      · rw [p3s_nonsp_cons _ c r hcf, noAdj_cons, key, hcf]
        simp

theorem noWsP_p3s (l : List Char) (h1 : allWS1 l = true) (h2 : noAdj l = true)
    (h3 : noWsP l = true) :
    noWsP (p3s 0 l) = true ∧ noWsP (p3s 1 l) = true := by
  induction l with
  | nil => exact ⟨rfl, rfl⟩
  | cons c r ih =>
    rw [allWS1_cons, Bool.and_eq_true] at h1
    rw [noAdj_cons, Bool.and_eq_true] at h2
    rw [noWsP_cons, Bool.and_eq_true] at h3
    have ihr := ih h1.2 h2.2 h3.2
    by_cases hc : isSp c = true
    · have hr : hdSp r = false := by
        cases hr : hdSp r with
        | false => rfl
        | true => rw [hc, hr] at h2; simp at h2
      have hpr : hdPunct r = false := by
        cases hpr : hdPunct r with
        | false => rfl
        | true => rw [hc, hpr] at h3; simp at h3
      constructor
      · rw [p3s0_sp_cons c r hc, noWsP_cons, ihr.1, hdPunct_p3s0 r, hpr]
        simp
      · rw [p3s1_sp_cons c r hc, p3s_st_irrel r hr 2 0, noWsP_cons, ihr.1,
            hdPunct_p3s0 r, hpr]
        simp
    · have hcf : isSp c = false := by simpa using hc
      have key : noWsP (p3s (if isPunct c then 1 else 0) r) = true := by
        by_cases hp : isPunct c = true
        · simpa [hp] using ihr.2
        · simpa [hp] using ihr.1
      constructor <;>
      · rw [p3s_nonsp_cons _ c r hcf, noWsP_cons, key, hcf]
        simp

theorem allWS1_dropWhile (l : List Char) (h : allWS1 l = true) :
    allWS1 (l.dropWhile isSp) = true := by
  induction l with
  | nil => rfl
  | cons c r ih =>
    rw [allWS1_cons, Bool.and_eq_true] at h
    by_cases hc : isSp c = true
    · simpa [List.dropWhile_cons, hc] using ih h.2
    · rw [List.dropWhile_cons, if_neg hc, allWS1_cons, h.1, h.2]
      rfl

theorem noAdj_dropWhile (l : List Char) (h : noAdj l = true) :
    noAdj (l.dropWhile isSp) = true := by
  induction l with
  | nil => rfl
  | cons c r ih =>
    rw [noAdj_cons, Bool.and_eq_true] at h
    by_cases hc : isSp c = true
    · simpa [List.dropWhile_cons, hc] using ih h.2
    · rw [List.dropWhile_cons, if_neg hc, noAdj_cons, h.1, h.2]
      rfl

theorem noWsP_dropWhile (l : List Char) (h : noWsP l = true) :
    noWsP (l.dropWhile isSp) = true := by
  induction l with
  | nil => rfl
  | cons c r ih =>
    rw [noWsP_cons, Bool.and_eq_true] at h
    by_cases hc : isSp c = true
    · simpa [List.dropWhile_cons, hc] using ih h.2
    · rw [List.dropWhile_cons, if_neg hc, noWsP_cons, h.1, h.2]
      rfl

theorem allWS1_dropTrail (l : List Char) (h : allWS1 l = true) :
    allWS1 (dropTrail l) = true := by
  induction l with
  | nil => rfl
  | cons c r ih =>
    rw [allWS1_cons, Bool.and_eq_true] at h
    cases hdt : dropTrail r with
    | nil =>
      rw [dropTrail_cons, hdt]
      by_cases hc : isSp c = true
      · simp [hc, allWS1]
      · simp only [hc, Bool.false_eq_true, if_false]
        rw [allWS1_cons, h.1]
        rfl
    | cons d t =>
      rw [dropTrail_cons, hdt]
      rw [allWS1_cons, h.1, ← hdt, ih h.2]
      rfl

theorem noAdj_dropTrail (l : List Char) (h : noAdj l = true) :
    noAdj (dropTrail l) = true := by
  induction l with
  | nil => rfl
  | cons c r ih =>
    rw [noAdj_cons, Bool.and_eq_true] at h
    cases hdt : dropTrail r with
    | nil =>
      rw [dropTrail_cons, hdt]
      by_cases hc : isSp c = true
      · simp [hc, noAdj]
      · simp only [hc, Bool.false_eq_true, if_false]
        simp [noAdj_cons, hc, hdSp, noAdj]
    | cons d t =>
      rw [dropTrail_cons, hdt]
      have hp : (isSp c && hdSp (d :: t)) = false := by
        cases hsp : isSp c with
        | false => rfl
        | true =>
          cases hds : hdSp (d :: t) with
          | false => rfl
          | true =>
            have hr : hdSp r = true := hdSp_dropTrail r (by rw [hdt]; exact hds)
            rw [hsp, hr] at h
            simp at h
      rw [noAdj_cons, hp, ← hdt, ih h.2]
      rfl

theorem noWsP_dropTrail (l : List Char) (h : noWsP l = true) :
    noWsP (dropTrail l) = true := by
  induction l with
  | nil => rfl
  | cons c r ih =>
    rw [noWsP_cons, Bool.and_eq_true] at h
    cases hdt : dropTrail r with
    | nil =>
      rw [dropTrail_cons, hdt]
      by_cases hc : isSp c = true
      · simp [hc, noWsP]
      · simp [noWsP_cons, hc, hdPunct, noWsP]
    | cons d t =>
      rw [dropTrail_cons, hdt]
      have hp : (isSp c && hdPunct (d :: t)) = false := by
        cases hsp : isSp c with
        | false => rfl
        | true =>
          cases hds : hdPunct (d :: t) with
          | false => rfl
          | true =>
            have hr : hdPunct r = true := hdPunct_dropTrail r (by rw [hdt]; exact hds)
            rw [hsp, hr] at h
            simp at h
      rw [noWsP_cons, hp, ← hdt, ih h.2]
      rfl

/-! ### Fixpoint lemmas: collapsed text is unchanged by each pass -/

theorem cws2_fix (l : List Char) (h1 : allWS1 l = true) (h2 : noAdj l = true) :
    cws2 false l = l ∧ (hdSp l = false → cws2 true l = l) := by
  induction l with
  | nil => exact ⟨rfl, fun _ => rfl⟩
  | cons c r ih =>
    rw [allWS1_cons, Bool.and_eq_true] at h1
    rw [noAdj_cons, Bool.and_eq_true] at h2
    have ihr := ih h1.2 h2.2
    by_cases hc : isSp c = true
    · have hcsp : c = ' ' := by
        have := h1.1
        rw [hc] at this
        simpa using this
      have hr : hdSp r = false := by
        have := h2.1
        rw [hc] at this
        simpa using this
      constructor
      · have e : cws2 false (c :: r) = ' ' :: cws2 true r := by simp [cws2, hc]
        rw [e, ihr.2 hr, hcsp]
      · intro habs
        simp only [hdSp, hc] at habs
        simp at habs
    · constructor
      · have e : cws2 false (c :: r) = c :: cws2 false r := by simp [cws2, hc]
        rw [e, ihr.1]
      · intro _
        have e : cws2 true (c :: r) = c :: cws2 false r := by simp [cws2, hc]
        rw [e, ihr.1]

theorem p2s_fix (l : List Char) (h : noWsP l = true) : p2s l = l := by
  induction l with
  | nil => rfl
  | cons c r ih =>
    rw [noWsP_cons, Bool.and_eq_true] at h
    have hcf : (isSp c && hdPunct r) = false := by
      have hx := h.1
      cases he : (isSp c && hdPunct r) with
      | false => rfl
      | true => rw [he] at hx; simp at hx
    rw [p2s_cons, ih h.2, hcf]
    simp

theorem p3s_fix (l : List Char) (h1 : allWS1 l = true) (h2 : noAdj l = true)
    (h3 : noWsP l = true) : p3s 0 l = l ∧ p3s 1 l = l := by
  induction l with
  | nil => exact ⟨rfl, rfl⟩
  | cons c r ih =>
    rw [allWS1_cons, Bool.and_eq_true] at h1
    rw [noAdj_cons, Bool.and_eq_true] at h2
    rw [noWsP_cons, Bool.and_eq_true] at h3
    have ihr := ih h1.2 h2.2 h3.2
    by_cases hc : isSp c = true
    · have hcsp : c = ' ' := by
        have := h1.1
        rw [hc] at this
        simpa using this
      have hr : hdSp r = false := by
        have := h2.1
        rw [hc] at this
        simpa using this
      constructor
      · rw [p3s0_sp_cons c r hc, ihr.1]
      · rw [p3s1_sp_cons c r hc, p3s_st_irrel r hr 2 0, ihr.1, hcsp]
    · have hcf : isSp c = false := by simpa using hc
      have key : p3s (if isPunct c then 1 else 0) r = r := by
        by_cases hp : isPunct c = true
        · simpa [hp] using ihr.2
        · simpa [hp] using ihr.1
      constructor <;> rw [p3s_nonsp_cons _ c r hcf, key]

theorem collapse_spaces_shape (l : List Char) :
    allWS1 (collapse_spaces l) = true ∧ noAdj (collapse_spaces l) = true ∧
      noWsP (collapse_spaces l) = true := by
  have ha1 := allWS1_cws2 l false
  have ha2 := noAdj_cws2 l false
  have hb1 := allWS1_p2s _ ha1
  have hb2 := noAdj_p2s _ ha2
  have hb3 := noWsP_p2s (cws2 false l)
  have hc1 := allWS1_p3s _ hb1 0
  have hc2 := (noAdj_p3s _ hb1 hb2 hb3).1
  have hc3 := (noWsP_p3s _ hb1 hb2 hb3).1
  refine ⟨?_, ?_, ?_⟩
  · exact allWS1_dropTrail _ (allWS1_dropWhile _ hc1)
  · exact noAdj_dropTrail _ (noAdj_dropWhile _ hc2)
  · exact noWsP_dropTrail _ (noWsP_dropWhile _ hc3)

theorem collapse_spaces_idem (l : List Char) :
    collapse_spaces (collapse_spaces l) = collapse_spaces l := by
  obtain ⟨h1, h2, h3⟩ := collapse_spaces_shape l
  have e : collapse_spaces (collapse_spaces l) =
      pyStrip (p3s 0 (p2s (cws2 false (collapse_spaces l)))) := rfl
  rw [e, (cws2_fix _ h1 h2).1, p2s_fix _ h3, (p3s_fix _ h1 h2 h3).1]
  exact pyStrip_idem (p3s 0 (p2s (cws2 false l)))

/-! ### Word and symbol pass fixpoints -/

theorem roGo_fix (w s : List Char) (h : ciOccursB w s = false) : roGo w 0 s = s := by
  induction s with
  | nil => rfl
  | cons c r ih =>
    rw [ciOccursB, occursB, Bool.or_eq_false_iff] at h
    rw [roGo, if_neg (by rw [h.1]; exact Bool.false_ne_true)]
    rw [ih h.2]

theorem removeOcc_fix (w s : List Char) (h : ciOccursB w s = false) :
    removeOcc w s = s := by
  cases w with
  | nil => rfl
  | cons a as => exact roGo_fix (a :: as) s h

theorem word_strip_foldl_fix (ws : List String) (s : List Char) :
    ∀ acc : List String, (∀ w ∈ ws, ciOccursB w.toList s = false) →
      (ws.foldl (fun acc w =>
          let hit := ciOccursB w.toList acc.1
          (removeOcc w.toList acc.1, if hit then acc.2 ++ [w] else acc.2))
        (s, acc)).1 = s := by
  induction ws with
  | nil => intro acc _; rfl
  | cons w ws ih =>
    intro acc h
    rw [List.foldl_cons]
    have hw := h w (List.mem_cons_self w ws)
    simp only [removeOcc_fix w.toList s hw]
    exact ih _ (fun v hv => h v (List.mem_cons_of_mem w hv))

theorem word_strip_fix (words : List String) (s : List Char)
    (h : ∀ w ∈ sorted_desc_by_len words, ciOccursB w.toList s = false) :
    (word_strip words s).1 = s :=
  word_strip_foldl_fix (sorted_desc_by_len words) s [] h

theorem symbol_strip_fix (symbols : List String) (s : List Char)
    (h : ∀ t ∈ symbols, t ≠ "" → substrB t.toList s = false) :
    (symbol_strip symbols s).1 = s := by
  unfold symbol_strip
  by_cases he : symbols.isEmpty = true
  · rw [if_pos he]
  · rw [if_neg he]
    have hp : symbols.filter (fun t => t ≠ "" && substrB t.toList s) = [] := by
      rw [List.filter_eq_nil_iff]
      intro t ht
      by_cases hte : t = ""
      · simp [hte]
      · have hx := h t ht hte
        simp [hx]
        intro _
        exact hx
    rw [hp]
    simp

/-! ### Claim C2 -/

/-- C2, counterexample: `sanitize` is not idempotent.  Removing the word
"ab" from "aabb" is a single left-to-right non-overlapping pass: it deletes
the middle occurrence and splices the remaining characters into a NEW
occurrence "ab", which a second sanitize pass removes. -/
theorem C2_counterexample :
    (sanitize_text (String.mk (sanitize_text "aabb" ["ab"] []).1) ["ab"] []).1 ≠
      (sanitize_text "aabb" ["ab"] []).1 := by
  decide

/-- C2, amended: `sanitize_text` is idempotent on every input whose
sanitized output contains no residual case-insensitive occurrence of a
configured word and no occurrence of a configured symbol.  (In general a
removal pass can splice a new prohibited occurrence together, and
re-sanitizing removes more.) -/
theorem C2_sanitize_idempotent_amended (x : String) (words symbols : List String)
    (hw : ∀ w ∈ sorted_desc_by_len words,
        ciOccursB w.toList (sanitize_text x words symbols).1 = false)
    (hs : ∀ t ∈ symbols, t ≠ "" →
        substrB t.toList (sanitize_text x words symbols).1 = false) :
    (sanitize_text (String.mk (sanitize_text x words symbols).1) words symbols).1 =
      (sanitize_text x words symbols).1 := by
  have hy : (sanitize_text x words symbols).1 =
      collapse_spaces ((symbol_strip symbols
        ((word_strip words (pyStrip x.toList)).1)).1) := rfl
  have hstrip : pyStrip (sanitize_text x words symbols).1 =
      (sanitize_text x words symbols).1 := by
    rw [hy]
    exact pyStrip_idem _
  show collapse_spaces ((symbol_strip symbols ((word_strip words
      (pyStrip (String.mk (sanitize_text x words symbols).1).toList)).1)).1) =
    (sanitize_text x words symbols).1
  rw [show (String.mk (sanitize_text x words symbols).1).toList =
      (sanitize_text x words symbols).1 from rfl]
  rw [hstrip, word_strip_fix words _ hw, symbol_strip_fix symbols _ hs]
  conv_lhs => rw [hy]
  rw [collapse_spaces_idem]
  exact hy.symm

/-- C2, witness: with word "무료 배송" and symbol "!", the sanitized form of
"무료 배송 니트!" is "니트", which contains no residual word or symbol, and
re-sanitizing it leaves it unchanged. -/
theorem C2_witness :
    (∀ w ∈ sorted_desc_by_len ["무료 배송"],
        ciOccursB w.toList (sanitize_text "무료 배송 니트!" ["무료 배송"] ["!"]).1 = false)
    ∧ (∀ t ∈ (["!"] : List String), t ≠ "" →
        substrB t.toList (sanitize_text "무료 배송 니트!" ["무료 배송"] ["!"]).1 = false)
    ∧ (sanitize_text (String.mk (sanitize_text "무료 배송 니트!" ["무료 배송"] ["!"]).1)
        ["무료 배송"] ["!"]).1 = (sanitize_text "무료 배송 니트!" ["무료 배송"] ["!"]).1 :=
  ⟨by decide, by decide,
   C2_sanitize_idempotent_amended "무료 배송 니트!" ["무료 배송"] ["!"]
     (by decide) (by decide)⟩

/-! ### Membership lemmas for the collapse passes -/

theorem mem_cws2 (l : List Char) (c : Char) :
    ∀ b, c ∈ cws2 b l → c ∈ l ∨ c = ' ' := by
  induction l with
  | nil => intro b h; cases h
  | cons a r ih =>
    intro b h
    by_cases ha : isSp a = true
    · cases b with
      | true =>
        rw [show cws2 true (a :: r) = cws2 true r from by simp [cws2, ha]] at h
        rcases ih true h with h | h
        · exact Or.inl (List.mem_cons_of_mem a h)
        · exact Or.inr h
      | false =>
        rw [show cws2 false (a :: r) = ' ' :: cws2 true r from by simp [cws2, ha]] at h
        rcases List.mem_cons.mp h with h | h
        · exact Or.inr h
        · rcases ih true h with h | h
          · exact Or.inl (List.mem_cons_of_mem a h)
          · exact Or.inr h
    · rw [show cws2 b (a :: r) = a :: cws2 false r from by simp [cws2, ha]] at h
      rcases List.mem_cons.mp h with h | h
      · exact Or.inl (h ▸ List.mem_cons_self a r)
      · rcases ih false h with h | h
        · exact Or.inl (List.mem_cons_of_mem a h)
        · exact Or.inr h

theorem mem_p2s (l : List Char) (c : Char) (h : c ∈ p2s l) : c ∈ l := by
  induction l with
  | nil => cases h
  | cons a r ih =>
    rw [p2s_cons] at h
    by_cases hcond : (isSp a && hdPunct (p2s r)) = true
    · rw [if_pos hcond] at h
      exact List.mem_cons_of_mem a (ih h)
    · rw [if_neg hcond] at h
      rcases List.mem_cons.mp h with h | h
      · exact h ▸ List.mem_cons_self a r
      · exact List.mem_cons_of_mem a (ih h)

theorem mem_p3s (l : List Char) (c : Char) :
    ∀ st, c ∈ p3s st l → c ∈ l ∨ c = ' ' := by
  induction l with
  | nil => intro st h; cases h
  | cons a r ih =>
    intro st h
    by_cases ha : isSp a = true
    · by_cases h1 : st = 1
      · rw [h1, p3s1_sp_cons a r ha] at h
        rcases List.mem_cons.mp h with h | h
        · exact Or.inr h
        · rcases ih 2 h with h | h
          · exact Or.inl (List.mem_cons_of_mem a h)
          · exact Or.inr h
      · by_cases h2 : st = 2
        · rw [h2, show p3s 2 (a :: r) = p3s 2 r from by simp [p3s, ha]] at h
          rcases ih 2 h with h | h
          · exact Or.inl (List.mem_cons_of_mem a h)
          · exact Or.inr h
        · rw [show p3s st (a :: r) = a :: p3s 0 r from by simp [p3s, ha, h1, h2]] at h
          rcases List.mem_cons.mp h with h | h
          · exact Or.inl (h ▸ List.mem_cons_self a r)
          · rcases ih 0 h with h | h
            · exact Or.inl (List.mem_cons_of_mem a h)
            · exact Or.inr h
    · rw [p3s_nonsp_cons st a r (by simpa using ha)] at h
      rcases List.mem_cons.mp h with h | h
      · exact Or.inl (h ▸ List.mem_cons_self a r)
      · rcases ih _ h with h | h
        · exact Or.inl (List.mem_cons_of_mem a h)
        · exact Or.inr h

theorem mem_dropTrail (l : List Char) (c : Char) (h : c ∈ dropTrail l) : c ∈ l := by
  induction l with
  | nil => cases h
  | cons a r ih =>
    rw [dropTrail_cons] at h
    cases hdt : dropTrail r with
    | nil =>
      rw [hdt] at h
      by_cases ha : isSp a = true
      · simp [ha] at h
      · simp only [ha, Bool.false_eq_true, if_false, List.mem_singleton] at h
        exact h ▸ List.mem_cons_self a r
    | cons d t =>
      rw [hdt] at h
      rcases List.mem_cons.mp h with h | h
      · exact h ▸ List.mem_cons_self a r
      · exact List.mem_cons_of_mem a (ih (hdt ▸ h))

theorem mem_dropWhile (l : List Char) (c : Char) (h : c ∈ l.dropWhile isSp) :
    c ∈ l := by
  induction l with
  | nil => cases h
  | cons a r ih =>
    rw [List.dropWhile_cons] at h
    by_cases ha : isSp a = true
    · rw [if_pos ha] at h
      exact List.mem_cons_of_mem a (ih h)
    · rw [if_neg ha] at h
      exact h

theorem mem_collapse (l : List Char) (c : Char) (h : c ∈ collapse_spaces l) :
    c ∈ l ∨ c = ' ' := by
  have h1 : c ∈ p3s 0 (p2s (cws2 false l)) :=
    mem_dropWhile _ c (mem_dropTrail _ c h)
  rcases mem_p3s _ c 0 h1 with h2 | h2
  · rcases mem_cws2 l c false (mem_p2s _ c h2) with h3 | h3
    · exact Or.inl h3
    · exact Or.inr h3
  · exact Or.inr h2

/-! ### Claim C9 -/

theorem substrB_singleton_of_mem (c : Char) (s : List Char) (h : c ∈ s) :
    substrB [c] s = true := by
  induction s with
  | nil => cases h
  | cons a r ih =>
    rw [substrB, occursB]
    rcases List.mem_cons.mp h with h | h
    · rw [show matchesAt id [c] (a :: r) = true from by simp [matchesAt, h]]
      rfl
    · have hr := ih h
      simp only [substrB] at hr
      rw [hr]
      simp

theorem mem_symbol_class (present : List String) (t : String) (ht : t ∈ present)
    (c : Char) (hc : c ∈ t.toList) :
    c ∈ present.foldr (fun t acc => t.toList ++ acc) [] := by
  induction present with
  | nil => cases ht
  | cons u us ih =>
    rw [List.foldr_cons]
    rcases List.mem_cons.mp ht with h | h
    · exact List.mem_append.mpr (Or.inl (h ▸ hc))
    · exact List.mem_append.mpr (Or.inr (ih h))

theorem symbol_strip_no_single (symbols : List String) (s : List Char) (ch : Char)
    (hmem : String.mk [ch] ∈ symbols) : ch ∉ (symbol_strip symbols s).1 := by
  have hne : symbols.isEmpty = false := by
    cases symbols with
    | nil => cases hmem
    | cons a l => rfl
  unfold symbol_strip
  rw [if_neg (by rw [hne]; exact Bool.false_ne_true)]
  by_cases hin : ch ∈ s
  · have hfp : String.mk [ch] ∈ symbols.filter (fun t => t ≠ "" && substrB t.toList s) := by
      refine List.mem_filter.mpr ⟨hmem, ?_⟩
      have hne2 : String.mk [ch] ≠ "" := by
        intro habs
        have h2 := congrArg String.data habs
        simp at h2
      have hsub : substrB (String.mk [ch]).toList s = true := by
        rw [show (String.mk [ch]).toList = [ch] from rfl]
        exact substrB_singleton_of_mem ch s hin
      rw [hsub, Bool.and_true]
      exact decide_eq_true hne2
    have hpe : (symbols.filter (fun t => t ≠ "" && substrB t.toList s)).isEmpty = false := by
      cases he : symbols.filter (fun t => t ≠ "" && substrB t.toList s) with
      | nil => rw [he] at hfp; cases hfp
      | cons a l => rfl
    rw [if_neg (by rw [hpe]; exact Bool.false_ne_true)]
    intro habs
    have hcls : ch ∈ (symbols.filter (fun t => t ≠ "" && substrB t.toList s)).foldr
        (fun t acc => t.toList ++ acc) [] :=
      mem_symbol_class _ _ hfp ch (by rw [show (String.mk [ch]).toList = [ch] from rfl]; exact List.mem_singleton.mpr rfl)
    have := (List.mem_filter.mp habs).2
    simp only [Bool.not_eq_true'] at this
    simp [List.contains, List.elem_eq_mem] at this
    exact this (by simpa using hcls)
  · by_cases hpe : (symbols.filter (fun t => t ≠ "" && substrB t.toList s)).isEmpty = true
    · rw [if_pos hpe]
      exact hin
    · rw [if_neg hpe]
      intro habs
      exact hin (List.mem_filter.mp habs).1

/-- C9: the sanitized text contains no occurrence of any non-whitespace
single-character symbol from the symbol set: the character-class pass
removes every occurrence present after word removal, and whitespace
normalisation can only introduce plain spaces. -/
theorem C9_no_symbol_in_output (text : String) (words symbols : List String)
    (ch : Char) (hmem : String.mk [ch] ∈ symbols) (hns : isSp ch = false) :
    ch ∉ (sanitize_text text words symbols).1 := by
  intro hin
  have h1 : ch ∈ (symbol_strip symbols
      ((word_strip words (pyStrip text.toList)).1)).1 ∨ ch = ' ' :=
    mem_collapse _ ch hin
  rcases h1 with h1 | h1
  · exact symbol_strip_no_single symbols _ ch hmem h1
  · rw [h1] at hns
    exact absurd hns (by decide)

/-- C9, witness at the symbol "★" inside "a★b". -/
theorem C9_witness :
    (String.mk ['★'] ∈ (["★"] : List String))
    ∧ isSp '★' = false
    ∧ '★' ∉ (sanitize_text "a★b" [] ["★"]).1 :=
  ⟨by decide, by decide,
   C9_no_symbol_in_output "a★b" [] ["★"] '★' (by decide) (by decide)⟩

end KWORD
